import Mathlib

/-!
Verification of the client-task data model of `voice-skill-sdk`
(`skill_sdk/responses/task.py`) in a shallow embedding.

Modelling conventions, matching the Python source:

* `datetime.timedelta` values are represented by their total signed number of
  microseconds (an `Int`); this is exactly the resolution and normal form of
  Python's `timedelta`.
* `datetime.datetime` values are represented by the `Datetime` structure below;
  `tzinfo` is represented by an optional UTC offset in whole minutes
  (`none` = naive datetime).
* `isodate.duration_isoformat` (called by `ExecutionTime.after`) is embedded
  as `durationChars` / `duration_isoformat`, following the isodate library's
  `_strfduration` for `timedelta` arguments: split `abs(total microseconds)`
  into days/hours/minutes/seconds/microseconds, emit only the non-zero
  components (seconds are also emitted when only microseconds are non-zero,
  with the fraction printed as `%06d` and trailing zeros stripped), emit `0D`
  when every component is zero, and prefix `-` for negative durations.
* `isodate.parse_duration` is embedded as `parseDur` below, restricted to the
  sublanguage `duration_isoformat` actually emits for `timedelta` values:
  optional sign, `P`, optional integer days component, optional `T` section
  with optional integer hours/minutes and seconds that may carry a decimal
  fraction of at most six digits (the only place the formatter emits a
  fraction).  Years/months/weeks components and fractions on other components
  never occur in those strings and are not modelled.
* pydantic models become plain structures.  Field validation relevant to the
  claims is modelled by `InvokeData.construct`: pydantic v1 rejects a missing
  required field but accepts any string (including the empty string) for a
  plain `Text` field.
-/

namespace SkillSdk

/-- Decimal digit character, `d ↦ '0' + d` (for `d < 10`). -/
def digitChar (d : Nat) : Char := Char.ofNat (48 + d)

/-- Fuel-driven decimal rendering of a natural number (most significant digit
first); for `n ≤ fuel` this is the full decimal expansion of `n`, empty when
`n = 0`. -/
def natReprAux (fuel : Nat) (n : Nat) : List Char :=
  match fuel with
  | 0 => []
  | fuel + 1 => if n = 0 then [] else natReprAux fuel (n / 10) ++ [digitChar (n % 10)]

/-- Decimal rendering of a natural number, as Python's `"%s" % n` / `"%d" % n`
produce it (`"0"` for zero, no leading zeros otherwise). -/
def natRepr (n : Nat) : List Char :=
  if n = 0 then ['0'] else natReprAux n n

/-- Left-pad a digit string with `'0'` to length 6, as Python's `"%06d"`. -/
def padLeft6 (l : List Char) : List Char := List.replicate (6 - l.length) '0' ++ l

/-- Left-pad a digit string with `'0'` to length 2, as Python's `"%02d"`. -/
def pad2 (n : Nat) : List Char := List.replicate (2 - (natRepr n).length) '0' ++ natRepr n

/-- Left-pad a digit string with `'0'` to length 4, as Python's `"%04d"`. -/
def pad4 (n : Nat) : List Char := List.replicate (4 - (natRepr n).length) '0' ++ natRepr n

/-- Python's `str.rstrip("0")`: drop all trailing `'0'` characters. -/
def dropTrailingZeros (l : List Char) : List Char :=
  (l.reverse.dropWhile (· == '0')).reverse

/-- Microsecond component of a `timedelta`'s absolute value, per isodate's
divmod cascade `seconds, usecs = divmod(abs(total_microseconds), 10**6)` etc. -/
def durUsecs (micros : Int) : Nat := micros.natAbs % 1000000

/-- Second component (0–59) of a `timedelta`'s absolute value. -/
def durSeconds (micros : Int) : Nat := micros.natAbs / 1000000 % 60

/-- Minute component (0–59) of a `timedelta`'s absolute value. -/
def durMinutes (micros : Int) : Nat := micros.natAbs / 1000000 / 60 % 60

/-- Hour component (0–23) of a `timedelta`'s absolute value. -/
def durHours (micros : Int) : Nat := micros.natAbs / 1000000 / 60 / 60 % 24

/-- Day component of a `timedelta`'s absolute value. -/
def durDays (micros : Int) : Nat := micros.natAbs / 1000000 / 60 / 60 / 24

/-- The seconds fragment of isodate's `%P` rendering: absent when seconds and
microseconds are both zero; `"<s>S"` for a whole number of seconds; otherwise
`"%d.%06d" % (seconds, usecs)` with trailing zeros stripped, then `"S"`. -/
def secondsPartChars (seconds usecs : Nat) : List Char :=
  if seconds ≠ 0 ∨ usecs ≠ 0 then
    (if usecs ≠ 0 then
      dropTrailingZeros (natRepr seconds ++ '.' :: padLeft6 (natRepr usecs))
    else natRepr seconds) ++ ['S']
  else []

/-- The `T…` fragment of isodate's `%P` rendering: present exactly when some
sub-day component is non-zero, with `H`/`M` fragments only for non-zero hours
and minutes. -/
def timePartChars (hours minutes seconds usecs : Nat) : List Char :=
  if hours ≠ 0 ∨ minutes ≠ 0 ∨ seconds ≠ 0 ∨ usecs ≠ 0 then
    'T' :: ((if hours ≠ 0 then natRepr hours ++ ['H'] else []) ++
      (if minutes ≠ 0 then natRepr minutes ++ ['M'] else []) ++
      secondsPartChars seconds usecs)
  else []

/-- Everything after the `P` in isodate's `%P` rendering (before the `0D`
fallback): day fragment, then the `T` section. -/
def durationBody (micros : Int) : List Char :=
  (if durDays micros ≠ 0 then natRepr (durDays micros) ++ ['D'] else []) ++
    timePartChars (durHours micros) (durMinutes micros) (durSeconds micros)
      (durUsecs micros)

/-- Embedding of `isodate.duration_isoformat` on a `timedelta` given as total
microseconds: component split of the absolute value, non-zero components only,
`0D` fallback when every component is zero, and a leading `-` for negative
input (isodate's sign handling for `tduration < timedelta(0)`). -/
def durationChars (micros : Int) : List Char :=
  (if micros < 0 then ['-'] else []) ++
    'P' :: (if durationBody micros = [] then ['0', 'D'] else durationBody micros)

/-- String form of `durationChars`, the value stored in `ExecuteAfter.offset`. -/
def duration_isoformat (micros : Int) : String := ⟨durationChars micros⟩

/-- Step of decimal accumulation while scanning digits, `a, c ↦ 10*a + (c - '0')`. -/
def digitStep (a : Nat) (c : Char) : Nat := a * 10 + (c.toNat - 48)

/-- Value of a most-significant-first decimal digit string. -/
def digitsVal (l : List Char) : Nat := l.foldl digitStep 0

/-- Whether a character list starts with a decimal digit. -/
def headIsDigit : List Char → Bool
  | [] => false
  | c :: _ => c.isDigit

/-- Scan a maximal run of leading digits, accumulating their decimal value
(the `[0-9]+` part of a regex component match). -/
def takeDigits : Nat → List Char → Nat × List Char
  | acc, [] => (acc, [])
  | acc, c :: cs =>
    if c.isDigit then takeDigits (acc * 10 + (c.toNat - 48)) cs else (acc, c :: cs)

/-- Scan a maximal run of leading digits, keeping the characters themselves
(used for the fractional part, whose length matters). -/
def takeDigitChars : List Char → List Char × List Char
  | [] => ([], [])
  | c :: cs =>
    if c.isDigit then
      match takeDigitChars cs with
      | (ds, rest) => (c :: ds, rest)
    else ([], c :: cs)

/-- One optional integer component `[0-9]+L` of isodate's duration regex: when
the input starts with digits followed by the designator `L`, consume them and
return the value; otherwise the component is absent (value 0, nothing
consumed — the regex backtracks). -/
def parseComp (L : Char) (s : List Char) : Nat × List Char :=
  match s with
  | [] => (0, [])
  | c :: cs =>
    if c.isDigit then
      match takeDigits 0 (c :: cs) with
      | (n, c' :: rest') => if c' = L then (n, rest') else (0, c :: cs)
      | (_, []) => (0, c :: cs)
    else (0, c :: cs)

/-- The optional seconds component `[0-9]+([,.][0-9]+)?S` of isodate's
duration regex, returning whole seconds and the microsecond value of the
fraction.  Fractions longer than six digits never occur in strings produced
by `duration_isoformat` and are not modelled. -/
def parseSecondsComp (s : List Char) : (Nat × Nat) × List Char :=
  match s with
  | [] => ((0, 0), [])
  | c :: cs =>
    if c.isDigit then
      match takeDigits 0 (c :: cs) with
      | (n, c' :: rest') =>
        if c' = 'S' then ((n, 0), rest')
        else if c' = '.' ∨ c' = ',' then
          match takeDigitChars rest' with
          | (ds, c'' :: rest'') =>
            if c'' = 'S' ∧ ds ≠ [] ∧ ds.length ≤ 6 then
              ((n, digitsVal ds * 10 ^ (6 - ds.length)), rest'')
            else ((0, 0), c :: cs)
          | (_, []) => ((0, 0), c :: cs)
        else ((0, 0), c :: cs)
      | (_, []) => ((0, 0), c :: cs)
    else ((0, 0), c :: cs)

/-- The optional `T` section of isodate's duration regex: hours, minutes and
seconds components, combined into a total number of microseconds. -/
def parseTime (s : List Char) : Nat × List Char :=
  match s with
  | [] => (0, [])
  | c :: cs =>
    if c = 'T' then
      let (hours, ra) := parseComp 'H' cs
      let (minutes, rb) := parseComp 'M' ra
      let ((seconds, usecs), rc) := parseSecondsComp rb
      (((hours * 60 + minutes) * 60 + seconds) * 1000000 + usecs, rc)
    else (0, c :: cs)

/-- Combine parsed days and sub-day microseconds with the sign, as isodate's
`parse_duration` does for its `timedelta` branch (`timedelta(0) - ret` for a
leading `-`). -/
def durValue (neg : Bool) (days time : Nat) : Int :=
  let total : Int := (days * 86400000000 + time : Nat)
  if neg then -total else total

/-- Duration parse after the optional sign: `P`, optional days component,
optional `T` section, end of input. -/
def parseDurBody (neg : Bool) (s : List Char) : Option Int :=
  match s with
  | [] => none
  | c :: cs =>
    if c = 'P' then
      let (days, rest1) := parseComp 'D' cs
      let (time, rest2) := parseTime rest1
      match rest2 with
      | [] => some (durValue neg days time)
      | _ => none
    else none

/-- Embedding of `isodate.parse_duration`, restricted to the sublanguage of
ISO-8601 durations that `duration_isoformat` emits for `timedelta` values
(optional sign, `P`, optional integer days, optional `T` section whose only
fractional component is the seconds): total microseconds, or `none` when the
string is not such a duration. -/
def parseDur (s : List Char) : Option Int :=
  match s with
  | [] => none
  | c :: cs =>
    if c = '-' then parseDurBody true cs
    else if c = '+' then parseDurBody false cs
    else parseDurBody false (c :: cs)

/-- Duration parse on strings (`ExecuteAfter.offset` values). -/
def parseDurationStr (s : String) : Option Int := parseDur s.data

/-- Formalisation of the spec's phrase "a valid non-negative ISO-8601 duration
string", judged with the embedded duration parse. -/
def nonNegIsoDuration (s : String) : Bool :=
  match parseDur s.data with
  | some m => decide (0 ≤ m)
  | none => false

/-- Embedding of `datetime.datetime`: calendar fields plus an optional UTC
offset in minutes standing for `tzinfo` (`none` = naive datetime). -/
structure Datetime where
  year : Nat
  month : Nat
  day : Nat
  hour : Nat := 0
  minute : Nat := 0
  second : Nat := 0
  microsecond : Nat := 0
  utcoffsetMinutes : Option Int := none
deriving DecidableEq, Repr

/-- Embedding of Python's `datetime.isoformat()`: `YYYY-MM-DDTHH:MM:SS`, a
`.ffffff` fraction only when `microsecond` is non-zero, and a `±HH:MM` suffix
only when the datetime is timezone-aware. -/
def isoformatChars (dt : Datetime) : List Char :=
  pad4 dt.year ++ '-' :: pad2 dt.month ++ '-' :: pad2 dt.day ++
    'T' :: pad2 dt.hour ++ ':' :: pad2 dt.minute ++ ':' :: pad2 dt.second ++
    (if dt.microsecond ≠ 0 then '.' :: padLeft6 (natRepr dt.microsecond) else []) ++
    (match dt.utcoffsetMinutes with
     | none => []
     | some off =>
        (if off < 0 then '-' else '+') :: pad2 (off.natAbs / 60) ++
          ':' :: pad2 (off.natAbs % 60))

/-- String form of `isoformatChars`, the value stored in `execute_at`. -/
def pyIsoformat (dt : Datetime) : String := ⟨isoformatChars dt⟩

/-- Formalisation of the spec's phrase "includes an explicit UTC/offset
designator" for a rendered ISO-8601 combined date-time: a `Z`, `+` or `-`
occurring after the ten date characters and the `T` separator. -/
def specHasTzDesignator (s : String) : Bool :=
  (s.data.drop 11).any (fun c => c == 'Z' || c == '+' || c == '-')

/-- Embedding of `ReferenceType` (`task.py`): reference event for execution. -/
inductive ReferenceType where
  | SPEECH_END
  | THIS_RESPONSE
  | MEDIA_CONTENT_END
deriving DecidableEq, Repr

/-- Embedding of `ExecuteAfter` (`task.py`): reference plus optional offset
duration string. -/
structure ExecuteAfter where
  reference : ReferenceType := ReferenceType.SPEECH_END
  offset : Option String := none
deriving DecidableEq, Repr

/-- Embedding of `ExecutionTime` (`task.py`): optional relative part and
optional absolute part, both physically optional. -/
structure ExecutionTime where
  execute_after : Option ExecuteAfter := none
  execute_at : Option String := none
deriving DecidableEq, Repr

/-- Embedding of `ExecutionTime.at`: `ExecutionTime(execute_at=time.isoformat())`. -/
def ExecutionTime.at (time : Datetime) : ExecutionTime :=
  { execute_at := some (pyIsoformat time) }

/-- Embedding of `ExecutionTime.after`:
`ExecutionTime(execute_after=ExecuteAfter(reference=event, offset=isodate.duration_isoformat(offset)))`,
with the `timedelta` argument given as total microseconds. -/
def ExecutionTime.after (event : ReferenceType := ReferenceType.SPEECH_END)
    (offset : Int := 0) : ExecutionTime :=
  { execute_after :=
      some { reference := event, offset := some (duration_isoformat offset) } }

/-- Embedding of `InvokeData` (`task.py`): intent name, optional skill id,
parameter map (as an association list, insertion ordered like a Python dict). -/
structure InvokeData where
  intent : String
  skill_id : Option String := none
  parameters : List (String × List String) := []
deriving DecidableEq, Repr

/-- Validation failure of a pydantic model constructor. -/
inductive ValidationError where
  | fieldRequired (field : String)
deriving DecidableEq, Repr

/-- Embedding of pydantic-v1 construction of `InvokeData`: the `intent` field
is required (passing no value fails validation), but its annotation is plain
`Text`, so any string — the empty string included — is accepted. -/
def InvokeData.construct (intent : Option String) (skill_id : Option String := none)
    (parameters : List (String × List String) := []) : Except ValidationError InvokeData :=
  match intent with
  | none => Except.error (ValidationError.fieldRequired "intent")
  | some i => Except.ok { intent := i, skill_id := skill_id, parameters := parameters }

/-- Embedding of `DelayedClientTask` (`task.py`): invoke data plus execution
time. -/
structure DelayedClientTask where
  invoke_data : InvokeData
  execution_time : ExecutionTime
deriving DecidableEq, Repr

/-- A keyword-argument value of `DelayedClientTask.invoke`, typed
`Union[Text, List[Text]]` in the source. -/
inductive ParamValue where
  | text (s : String)
  | listOf (l : List String)
deriving DecidableEq, Repr

/-- The per-value normalization inside `DelayedClientTask.invoke`:
`[v] if isinstance(v, Text) else v`. -/
def normalizeParam : ParamValue → List String
  | ParamValue.text s => [s]
  | ParamValue.listOf l => l

/-- Embedding of the static factory `DelayedClientTask.invoke`: normalize the
keyword arguments, build `InvokeData`, and default the execution time to
`ExecutionTime.after(ReferenceType.SPEECH_END)` (zero offset). -/
def DelayedClientTask.invoke (intent : String) (skill_id : Option String := none)
    (kwargs : List (String × ParamValue) := []) : DelayedClientTask :=
  let parameters := kwargs.map (fun kv => (kv.1, normalizeParam kv.2))
  let invoke_data : InvokeData :=
    { intent := intent, skill_id := skill_id, parameters := parameters }
  let execution_time := ExecutionTime.after ReferenceType.SPEECH_END
  { invoke_data := invoke_data, execution_time := execution_time }

/-- Embedding of the method `DelayedClientTask.at`:
`self.copy(update=dict(execution_time=ExecutionTime.at(time)))`. -/
def DelayedClientTask.at (self : DelayedClientTask) (time : Datetime) : DelayedClientTask :=
  { self with execution_time := ExecutionTime.at time }

/-- Embedding of the method `DelayedClientTask.after`:
`self.copy(update=dict(execution_time=ExecutionTime.after(event=event, offset=offset)))`. -/
def DelayedClientTask.after (self : DelayedClientTask)
    (event : ReferenceType := ReferenceType.SPEECH_END)
    (offset : Int := 0) : DelayedClientTask :=
  { self with execution_time := ExecutionTime.after event offset }

/-- Modelled from the spec: `ErrorCode` (`skill_sdk.responses`), whose source
is not part of this excerpt — only `src/tests/responses/test_error.py`
exercises it.  Named error conditions with fixed numeric codes:
`INVALID_TOKEN = 2`, `INTERNAL_ERROR = 999`. -/
inductive ErrorCode where
  | INVALID_TOKEN
  | INTERNAL_ERROR
deriving DecidableEq, Repr

/-- Modelled from the spec: the fixed numeric code of each named error
condition. -/
def ErrorCode.toCode : ErrorCode → Nat
  | ErrorCode.INVALID_TOKEN => 2
  | ErrorCode.INTERNAL_ERROR => 999

/-- Modelled from the spec: `ErrorResponse` (`skill_sdk.responses`), whose
source is not part of this excerpt — a structured error with a numeric `code`
and a `text`. -/
structure ErrorResponse where
  code : Nat
  text : String
deriving DecidableEq, Repr

/-! ## Decimal digit-string lemmas -/

/-- Characters produced by `digitChar` on digits are decimal digits. -/
theorem digitChar_isDigit {d : Nat} (h : d < 10) : (digitChar d).isDigit = true := by
  interval_cases d <;> decide

/-- Numeric value of a `digitChar`. -/
theorem digitChar_toNat {d : Nat} (h : d < 10) : (digitChar d).toNat = 48 + d := by
  interval_cases d <;> decide

/-- All characters of `natReprAux` are decimal digits. -/
theorem natReprAux_digits : ∀ (fuel n : Nat), n ≤ fuel →
    ∀ c ∈ natReprAux fuel n, c.isDigit = true := by
  intro fuel
  induction fuel with
  | zero => intro n hn c hc; simp [natReprAux] at hc
  | succ fuel ih =>
    intro n hn c hc
    by_cases h0 : n = 0
    · simp [natReprAux, h0] at hc
    · simp only [natReprAux, h0, if_false] at hc
      rcases List.mem_append.mp hc with h | h
      · have hlt : n / 10 ≤ fuel :=
          Nat.lt_succ_iff.mp
            (lt_of_lt_of_le (Nat.div_lt_self (Nat.pos_of_ne_zero h0) (by norm_num)) hn)
        exact ih (n / 10) hlt c h
      · have hc' : c = digitChar (n % 10) := by simpa using h
        subst hc'
        exact digitChar_isDigit (Nat.mod_lt n (by norm_num))

/-- All characters of `natRepr` are decimal digits. -/
theorem natRepr_digits (n : Nat) : ∀ c ∈ natRepr n, c.isDigit = true := by
  intro c hc
  by_cases h0 : n = 0
  · simp [natRepr, h0] at hc; subst hc; decide
  · simp only [natRepr, h0, if_false] at hc
    exact natReprAux_digits n n le_rfl c hc

/-- `natRepr` is never empty. -/
theorem natRepr_ne_nil (n : Nat) : natRepr n ≠ [] := by
  by_cases h0 : n = 0
  · simp [natRepr, h0]
  · obtain ⟨m, rfl⟩ : ∃ m, n = m + 1 := ⟨n - 1, by omega⟩
    simp [natRepr, natReprAux, h0]

/-- Folding `digitStep` over `natReprAux` recovers the number (shifted past
the accumulator). -/
theorem foldl_digitStep_natReprAux : ∀ (fuel n acc : Nat), n ≤ fuel →
    List.foldl digitStep acc (natReprAux fuel n) =
      acc * 10 ^ (natReprAux fuel n).length + n := by
  intro fuel
  induction fuel with
  | zero => intro n acc hn; interval_cases n; simp [natReprAux]
  | succ fuel ih =>
    intro n acc hn
    by_cases h0 : n = 0
    · subst h0; simp [natReprAux]
    · have hlt : n / 10 ≤ fuel :=
        Nat.lt_succ_iff.mp
          (lt_of_lt_of_le (Nat.div_lt_self (Nat.pos_of_ne_zero h0) (by norm_num)) hn)
      simp only [natReprAux, h0, if_false]
      rw [List.foldl_append, ih (n / 10) acc hlt]
      have hmod : (digitChar (n % 10)).toNat = 48 + n % 10 :=
        digitChar_toNat (Nat.mod_lt n (by norm_num))
      simp only [List.foldl_cons, List.foldl_nil, digitStep, hmod,
        List.length_append, List.length_cons, List.length_nil]
      have hdm : 10 * (n / 10) + n % 10 = n := Nat.div_add_mod n 10
      have hgoal : (acc * 10 ^ (natReprAux fuel (n / 10)).length + n / 10) * 10 +
          (48 + n % 10 - 48) =
          acc * (10 ^ (natReprAux fuel (n / 10)).length * 10) +
            (10 * (n / 10) + n % 10) := by
        have h48 : 48 + n % 10 - 48 = n % 10 := by omega
        rw [h48]; ring
      rw [hgoal, hdm, ← pow_succ]

/-- Folding `digitStep` over `natRepr` from zero recovers the number. -/
theorem digitsVal_natRepr (n : Nat) : digitsVal (natRepr n) = n := by
  by_cases h0 : n = 0
  · subst h0; decide
  · show List.foldl digitStep 0 (natRepr n) = n
    simp only [natRepr, h0, if_false]
    rw [foldl_digitStep_natReprAux n n 0 le_rfl]
    simp

/-- Length bound for `natReprAux`: a number below `10 ^ k` needs at most `k`
digits. -/
theorem natReprAux_length_le : ∀ (fuel n k : Nat), n ≤ fuel → n < 10 ^ k →
    (natReprAux fuel n).length ≤ k := by
  intro fuel
  induction fuel with
  | zero => intro n k hn _; interval_cases n; simp [natReprAux]
  | succ fuel ih =>
    intro n k hn hk
    by_cases h0 : n = 0
    · subst h0; simp [natReprAux]
    · have hlt : n / 10 ≤ fuel :=
        Nat.lt_succ_iff.mp
          (lt_of_lt_of_le (Nat.div_lt_self (Nat.pos_of_ne_zero h0) (by norm_num)) hn)
      obtain ⟨k', rfl⟩ : ∃ k', k = k' + 1 := by
        refine ⟨k - 1, ?_⟩
        rcases Nat.eq_zero_or_pos k with hk0 | hk0
        · subst hk0; simp at hk; omega
        · omega
      have hdiv : n / 10 < 10 ^ k' := by
        rw [Nat.div_lt_iff_lt_mul (by norm_num : (0:ℕ) < 10)]
        calc n < 10 ^ (k' + 1) := hk
          _ = 10 ^ k' * 10 := by rw [pow_succ]
      simp only [natReprAux, h0, if_false, List.length_append, List.length_cons,
        List.length_nil]
      have := ih (n / 10) k' hlt hdiv
      omega

/-- Length bound for `natRepr`. -/
theorem natRepr_length_le {n k : Nat} (hk : 1 ≤ k) (h : n < 10 ^ k) :
    (natRepr n).length ≤ k := by
  by_cases h0 : n = 0
  · subst h0; simpa [natRepr] using hk
  · simp only [natRepr, h0, if_false]
    exact natReprAux_length_le n n k le_rfl h

/-- Scanning a run of digits followed by a non-digit consumes exactly the
digits and folds up their value. -/
theorem takeDigits_append : ∀ (ds rest : List Char) (acc : Nat),
    (∀ c ∈ ds, c.isDigit = true) → headIsDigit rest = false →
    takeDigits acc (ds ++ rest) = (ds.foldl digitStep acc, rest) := by
  intro ds
  induction ds with
  | nil =>
    intro rest acc _ hrest
    cases rest with
    | nil => simp [takeDigits]
    | cons c cs =>
      have hc : c.isDigit = false := by simpa [headIsDigit] using hrest
      simp [takeDigits, hc]
  | cons d ds ih =>
    intro rest acc hds hrest
    have hd : d.isDigit = true := hds d (by simp)
    simp only [List.cons_append, takeDigits, hd, if_true, List.append_eq]
    rw [ih rest _ (fun c hc => hds c (by simp [hc])) hrest]
    rfl

/-- Scanning the decimal rendering of `n` followed by a non-digit yields `n`. -/
theorem takeDigits_natRepr (n : Nat) (rest : List Char)
    (hrest : headIsDigit rest = false) :
    takeDigits 0 (natRepr n ++ rest) = (n, rest) := by
  rw [takeDigits_append (natRepr n) rest 0 (natRepr_digits n) hrest]
  exact congrArg (·, rest) (digitsVal_natRepr n)

/-- Scanning a run of digits followed by a non-digit keeps exactly the digit
characters. -/
theorem takeDigitChars_append : ∀ (ds rest : List Char),
    (∀ c ∈ ds, c.isDigit = true) → headIsDigit rest = false →
    takeDigitChars (ds ++ rest) = (ds, rest) := by
  intro ds
  induction ds with
  | nil =>
    intro rest _ hrest
    cases rest with
    | nil => simp [takeDigitChars]
    | cons c cs =>
      have hc : c.isDigit = false := by simpa [headIsDigit] using hrest
      simp [takeDigitChars, hc]
  | cons d ds ih =>
    intro rest hds hrest
    have hd : d.isDigit = true := hds d (by simp)
    simp only [List.cons_append, takeDigitChars, hd, if_true, List.append_eq]
    rw [ih rest (fun c hc => hds c (by simp [hc])) hrest]

/-! ## Trailing-zero and padding lemmas -/

/-- A list is its trailing-zero-stripped form plus trailing zeros. -/
theorem dropTrailingZeros_spec (l : List Char) :
    l = dropTrailingZeros l ++
      List.replicate (l.length - (dropTrailingZeros l).length) '0' := by
  have h1 : l.reverse.takeWhile (· == '0') ++ l.reverse.dropWhile (· == '0') =
      l.reverse := List.takeWhile_append_dropWhile (· == '0') l.reverse
  have h2 : l = (l.reverse.dropWhile (· == '0')).reverse ++
      (l.reverse.takeWhile (· == '0')).reverse := by
    conv_lhs => rw [← List.reverse_reverse l, ← h1]
    rw [List.reverse_append]
  have h3 : ∀ c ∈ l.reverse.takeWhile (· == '0'), c = '0' := by
    intro c hc
    have := List.mem_takeWhile_imp hc
    simpa using this
  have h4 : l.reverse.takeWhile (· == '0') =
      List.replicate (l.reverse.takeWhile (· == '0')).length '0' :=
    List.eq_replicate_of_mem h3
  have h5 : (l.reverse.takeWhile (· == '0')).length =
      l.length - (dropTrailingZeros l).length := by
    have hlen : l.length = (dropTrailingZeros l).length +
        (l.reverse.takeWhile (· == '0')).length := by
      conv_lhs => rw [h2]
      simp [dropTrailingZeros, List.length_append]
    omega
  conv_lhs => rw [h2]
  rw [show (l.reverse.takeWhile (· == '0')).reverse =
      List.replicate (l.length - (dropTrailingZeros l).length) '0' by
    rw [h4, List.reverse_replicate, h5]]
  rfl

/-- Stripping trailing zeros yields a sublist. -/
theorem dropTrailingZeros_sublist (l : List Char) :
    List.Sublist (dropTrailingZeros l) l := by
  have h := (List.dropWhile_sublist (l := l.reverse) (p := (· == '0'))).reverse
  simpa [dropTrailingZeros] using h

/-- Stripping trailing zeros of `X ++ P` only touches `P` when `P` does not
strip to nothing. -/
theorem dropTrailingZeros_append (X P : List Char)
    (h : dropTrailingZeros P ≠ []) :
    dropTrailingZeros (X ++ P) = X ++ dropTrailingZeros P := by
  have hne : P.reverse.dropWhile (· == '0') ≠ [] := by
    intro hnil
    apply h
    simp [dropTrailingZeros, hnil]
  have hemp : (P.reverse.dropWhile (· == '0')).isEmpty = false := by
    cases hd : P.reverse.dropWhile (· == '0') with
    | nil => exact absurd hd hne
    | cons a as => simp
  show ((X ++ P).reverse.dropWhile (· == '0')).reverse = _
  rw [List.reverse_append, List.dropWhile_append, hemp]
  simp [dropTrailingZeros, List.reverse_append]

/-- Folding `digitStep` over a run of `'0'` characters multiplies by `10 ^ k`. -/
theorem foldl_digitStep_replicate : ∀ (k a : Nat),
    List.foldl digitStep a (List.replicate k '0') = a * 10 ^ k := by
  intro k
  induction k with
  | zero => intro a; simp
  | succ k ih =>
    intro a
    rw [List.replicate_succ, List.foldl_cons]
    have hstep : digitStep a '0' = a * 10 := by simp [digitStep]
    rw [hstep, ih]
    ring

/-- Appending trailing zeros multiplies the decimal value by `10 ^ k`. -/
theorem digitsVal_append_replicate (A : List Char) (k : Nat) :
    digitsVal (A ++ List.replicate k '0') = digitsVal A * 10 ^ k := by
  show List.foldl digitStep 0 _ = _
  rw [List.foldl_append, foldl_digitStep_replicate]
  rfl

/-- The `%06d`-padded rendering of `u` still has decimal value `u`. -/
theorem digitsVal_padLeft6 (u : Nat) : digitsVal (padLeft6 (natRepr u)) = u := by
  show List.foldl digitStep 0 _ = _
  rw [padLeft6, List.foldl_append, foldl_digitStep_replicate]
  simpa using digitsVal_natRepr u

/-- The `%06d`-padded rendering of `u < 10^6` has exactly six characters. -/
theorem padLeft6_length {u : Nat} (h : u < 1000000) :
    (padLeft6 (natRepr u)).length = 6 := by
  have hle : (natRepr u).length ≤ 6 :=
    natRepr_length_le (by norm_num) (by norm_num at h ⊢; omega)
  simp [padLeft6, List.length_append, List.length_replicate]
  omega

/-- All characters of the `%06d`-padded rendering are digits. -/
theorem padLeft6_digits (u : Nat) :
    ∀ c ∈ padLeft6 (natRepr u), c.isDigit = true := by
  intro c hc
  rcases List.mem_append.mp hc with h | h
  · have : c = '0' := List.eq_of_mem_replicate h
    subst this; decide
  · exact natRepr_digits u c h

/-- Properties of the stripped fraction `F = rstrip0("%06d" % u)` for
`0 < u < 10^6`: non-empty, all digits, at most six of them, and restoring the
stripped zeros recovers `u`. -/
theorem frac_properties {u : Nat} (h0 : u ≠ 0) (h6 : u < 1000000) :
    dropTrailingZeros (padLeft6 (natRepr u)) ≠ [] ∧
    (∀ c ∈ dropTrailingZeros (padLeft6 (natRepr u)), c.isDigit = true) ∧
    (dropTrailingZeros (padLeft6 (natRepr u))).length ≤ 6 ∧
    digitsVal (dropTrailingZeros (padLeft6 (natRepr u))) *
      10 ^ (6 - (dropTrailingZeros (padLeft6 (natRepr u))).length) = u := by
  have hPlen : (padLeft6 (natRepr u)).length = 6 := padLeft6_length h6
  have hPval : digitsVal (padLeft6 (natRepr u)) = u := digitsVal_padLeft6 u
  have hspec := dropTrailingZeros_spec (padLeft6 (natRepr u))
  have hsub := dropTrailingZeros_sublist (padLeft6 (natRepr u))
  have hFlen : (dropTrailingZeros (padLeft6 (natRepr u))).length ≤ 6 :=
    hPlen ▸ hsub.length_le
  have hval : digitsVal (dropTrailingZeros (padLeft6 (natRepr u))) *
      10 ^ (6 - (dropTrailingZeros (padLeft6 (natRepr u))).length) = u := by
    have h := congrArg digitsVal hspec
    rw [digitsVal_append_replicate, hPval, hPlen] at h
    exact h.symm
  refine ⟨?_, ?_, hFlen, hval⟩
  · intro hnil
    rw [hnil] at hval
    simp [digitsVal] at hval
    exact h0 hval.symm
  · intro c hc
    exact padLeft6_digits u c (hsub.subset hc)

/-! ## Duration-parser component lemmas -/

/-- A present integer component `natRepr n ++ L :: rest` parses to `n`. -/
theorem parseComp_present (L : Char) (hL : L.isDigit = false) (n : Nat)
    (rest : List Char) :
    parseComp L (natRepr n ++ L :: rest) = (n, rest) := by
  obtain ⟨c, ds, hcd⟩ : ∃ c ds, natRepr n = c :: ds := by
    cases h : natRepr n with
    | nil => exact absurd h (natRepr_ne_nil n)
    | cons c ds => exact ⟨c, ds, rfl⟩
  have hc : c.isDigit = true := natRepr_digits n c (by rw [hcd]; exact List.mem_cons_self c ds)
  have ht : takeDigits 0 (natRepr n ++ L :: rest) = (n, L :: rest) :=
    takeDigits_natRepr n _ (by simp [headIsDigit, hL])
  rw [hcd] at ht ⊢
  simp only [List.cons_append] at ht ⊢
  simp only [parseComp, hc, if_true]
  rw [ht]
  simp

/-- An input not starting with a digit leaves an integer component absent. -/
theorem parseComp_absent (L : Char) (s : List Char) (h : headIsDigit s = false) :
    parseComp L s = (0, s) := by
  cases s with
  | nil => rfl
  | cons c cs =>
    have hc : c.isDigit = false := by simpa [headIsDigit] using h
    simp [parseComp, hc]

/-- Digits followed by the wrong designator make the component absent and
consume nothing (regex backtracking). -/
theorem parseComp_backtrack (L : Char) (n : Nat) (c : Char) (rest : List Char)
    (hc : c.isDigit = false) (hcL : c ≠ L) :
    parseComp L (natRepr n ++ c :: rest) = (0, natRepr n ++ c :: rest) := by
  obtain ⟨c0, ds, hcd⟩ : ∃ c0 ds, natRepr n = c0 :: ds := by
    cases h : natRepr n with
    | nil => exact absurd h (natRepr_ne_nil n)
    | cons c0 ds => exact ⟨c0, ds, rfl⟩
  have hc0 : c0.isDigit = true := natRepr_digits n c0 (by rw [hcd]; exact List.mem_cons_self c0 ds)
  have ht : takeDigits 0 (natRepr n ++ c :: rest) = (n, c :: rest) :=
    takeDigits_natRepr n _ (by simp [headIsDigit, hc])
  rw [hcd] at ht ⊢
  simp only [List.cons_append] at ht ⊢
  simp only [parseComp, hc0, if_true]
  rw [ht]
  simp [hcL]

/-- An optional integer component, in the exact shape the formatter emits it,
parses to its value, given that the remainder cannot be mistaken for the
component (it starts with a non-digit, or with digits followed by a non-digit
that is a different designator). -/
theorem parseComp_opt (L : Char) (hL : L.isDigit = false) (n : Nat)
    (rest : List Char)
    (hsafe : headIsDigit rest = false ∨
      ∃ k c r, rest = natRepr k ++ c :: r ∧ c.isDigit = false ∧ c ≠ L) :
    parseComp L ((if n ≠ 0 then natRepr n ++ [L] else []) ++ rest) = (n, rest) := by
  by_cases hn : n = 0
  · subst hn
    simp only [ne_eq, not_true_eq_false, if_false, List.nil_append]
    rcases hsafe with h | ⟨k, c, r, hr, hcdig, hcL⟩
    · exact parseComp_absent L rest h
    · rw [hr]; exact parseComp_backtrack L k c r hcdig hcL
  · simp only [ne_eq, hn, not_false_eq_true, if_true]
    rw [List.append_assoc, List.singleton_append]
    exact parseComp_present L hL n rest

/-- An input not starting with a digit leaves the seconds component absent. -/
theorem parseSecondsComp_absent (s : List Char) (h : headIsDigit s = false) :
    parseSecondsComp s = ((0, 0), s) := by
  cases s with
  | nil => rfl
  | cons c cs =>
    have hc : c.isDigit = false := by simpa [headIsDigit] using h
    simp [parseSecondsComp, hc]

/-- A whole-second component `natRepr n ++ "S"` parses to `(n, 0)`. -/
theorem parseSecondsComp_int (n : Nat) (rest : List Char) :
    parseSecondsComp (natRepr n ++ 'S' :: rest) = ((n, 0), rest) := by
  obtain ⟨c0, ds, hcd⟩ : ∃ c0 ds, natRepr n = c0 :: ds := by
    cases h : natRepr n with
    | nil => exact absurd h (natRepr_ne_nil n)
    | cons c0 ds => exact ⟨c0, ds, rfl⟩
  have hc0 : c0.isDigit = true := natRepr_digits n c0 (by rw [hcd]; exact List.mem_cons_self c0 ds)
  have ht : takeDigits 0 (natRepr n ++ 'S' :: rest) = (n, 'S' :: rest) :=
    takeDigits_natRepr n _ (by simp [headIsDigit])
  rw [hcd] at ht ⊢
  simp only [List.cons_append] at ht ⊢
  simp only [parseSecondsComp, hc0, if_true]
  rw [ht]
  simp

/-- A fractional-second component `natRepr n ++ "." ++ frac ++ "S"` parses to
`n` whole seconds plus the padded fraction value in microseconds. -/
theorem parseSecondsComp_frac (n : Nat) (frac rest : List Char)
    (h1 : frac ≠ []) (h2 : ∀ c ∈ frac, c.isDigit = true)
    (h3 : frac.length ≤ 6) :
    parseSecondsComp (natRepr n ++ '.' :: (frac ++ 'S' :: rest)) =
      ((n, digitsVal frac * 10 ^ (6 - frac.length)), rest) := by
  obtain ⟨c0, ds, hcd⟩ : ∃ c0 ds, natRepr n = c0 :: ds := by
    cases h : natRepr n with
    | nil => exact absurd h (natRepr_ne_nil n)
    | cons c0 ds => exact ⟨c0, ds, rfl⟩
  have hc0 : c0.isDigit = true := natRepr_digits n c0 (by rw [hcd]; exact List.mem_cons_self c0 ds)
  have ht : takeDigits 0 (natRepr n ++ '.' :: (frac ++ 'S' :: rest)) =
      (n, '.' :: (frac ++ 'S' :: rest)) :=
    takeDigits_natRepr n _ (by simp [headIsDigit])
  have htd : takeDigitChars (frac ++ 'S' :: rest) = (frac, 'S' :: rest) :=
    takeDigitChars_append frac _ h2 (by simp [headIsDigit])
  rw [hcd] at ht ⊢
  simp only [List.cons_append] at ht ⊢
  simp only [parseSecondsComp, hc0, if_true]
  rw [ht]
  simp only [if_neg (by decide : ¬('.' : Char) = 'S'),
    if_pos (Or.inl rfl : ('.' : Char) = '.' ∨ ('.' : Char) = ',')]
  rw [htd]
  simp [h1, h3]

/-- The formatter's seconds fragment parses back to its seconds/microseconds
pair, in every case (absent, whole, fractional). -/
theorem parseSecondsComp_secondsPart (s u : Nat) (hu : u < 1000000) :
    parseSecondsComp (secondsPartChars s u) = ((s, u), []) := by
  by_cases hz : s ≠ 0 ∨ u ≠ 0
  · simp only [secondsPartChars, if_pos hz]
    by_cases hu0 : u ≠ 0
    · simp only [if_pos hu0]
      obtain ⟨hFne, hFdig, hFlen, hFval⟩ := frac_properties hu0 hu
      have hshape : dropTrailingZeros (natRepr s ++ '.' :: padLeft6 (natRepr u)) =
          natRepr s ++ '.' :: dropTrailingZeros (padLeft6 (natRepr u)) := by
        have h := dropTrailingZeros_append (natRepr s ++ ['.'])
          (padLeft6 (natRepr u)) hFne
        simpa [List.append_assoc] using h
      rw [hshape]
      have hassoc : (natRepr s ++ '.' ::
          dropTrailingZeros (padLeft6 (natRepr u))) ++ ['S'] =
          natRepr s ++ '.' ::
            (dropTrailingZeros (padLeft6 (natRepr u)) ++ 'S' :: []) := by
        simp [List.append_assoc]
      rw [hassoc, parseSecondsComp_frac s _ [] hFne hFdig hFlen, hFval]
    · have hu0' : u = 0 := by omega
      subst hu0'
      simp only [if_neg hu0]
      have : natRepr s ++ ['S'] = natRepr s ++ 'S' :: [] := rfl
      rw [this, parseSecondsComp_int s []]
  · push_neg at hz
    obtain ⟨hs0, hu0⟩ := hz
    subst hs0; subst hu0
    simp [secondsPartChars, parseSecondsComp]

/-- The remainder after an optional `H`/`M` component — the formatter's
seconds fragment — can never be mistaken for that component. -/
theorem secondsPart_safe (s u : Nat) (hu : u < 1000000) (L : Char)
    (hS : L ≠ 'S') (hdot : L ≠ '.') :
    headIsDigit (secondsPartChars s u) = false ∨
      ∃ k c r, secondsPartChars s u = natRepr k ++ c :: r ∧
        c.isDigit = false ∧ c ≠ L := by
  by_cases hz : s ≠ 0 ∨ u ≠ 0
  · by_cases hu0 : u ≠ 0
    · right
      obtain ⟨hFne, _, _, _⟩ := frac_properties hu0 hu
      have hshape : dropTrailingZeros (natRepr s ++ '.' :: padLeft6 (natRepr u)) =
          natRepr s ++ '.' :: dropTrailingZeros (padLeft6 (natRepr u)) := by
        have h := dropTrailingZeros_append (natRepr s ++ ['.'])
          (padLeft6 (natRepr u)) hFne
        simpa [List.append_assoc] using h
      refine ⟨s, '.', dropTrailingZeros (padLeft6 (natRepr u)) ++ ['S'], ?_,
        by decide, fun hdot' => hdot hdot'.symm⟩
      simp only [secondsPartChars, if_pos hz, if_pos hu0, hshape]
      simp [List.append_assoc]
    · right
      refine ⟨s, 'S', [], ?_, by decide, fun hS' => hS hS'.symm⟩
      simp [secondsPartChars, if_pos hz, if_neg hu0]
  · left
    push_neg at hz
    simp [secondsPartChars, hz.1, hz.2, headIsDigit]

/-- The formatter's `T` section parses back to its total sub-day microsecond
value, leaving nothing. -/
theorem parseTime_timePart (h mi s u : Nat) (hu : u < 1000000) :
    parseTime (timePartChars h mi s u) =
      (((h * 60 + mi) * 60 + s) * 1000000 + u, []) := by
  by_cases hcond : h ≠ 0 ∨ mi ≠ 0 ∨ s ≠ 0 ∨ u ≠ 0
  · simp only [timePartChars, if_pos hcond]
    have hM : parseComp 'M' ((if mi ≠ 0 then natRepr mi ++ ['M'] else []) ++
        secondsPartChars s u) = (mi, secondsPartChars s u) :=
      parseComp_opt 'M' (by decide) mi _
        (secondsPart_safe s u hu 'M' (by decide) (by decide))
    have hH : parseComp 'H' ((if h ≠ 0 then natRepr h ++ ['H'] else []) ++
        ((if mi ≠ 0 then natRepr mi ++ ['M'] else []) ++ secondsPartChars s u)) =
        (h, (if mi ≠ 0 then natRepr mi ++ ['M'] else []) ++
          secondsPartChars s u) := by
      apply parseComp_opt 'H' (by decide)
      by_cases hm0 : mi ≠ 0
      · right
        refine ⟨mi, 'M', secondsPartChars s u, ?_, by decide, by decide⟩
        simp [if_pos hm0, List.append_assoc]
      · simp only [if_neg hm0, List.nil_append]
        exact secondsPart_safe s u hu 'H' (by decide) (by decide)
    have hassoc : (if h ≠ 0 then natRepr h ++ ['H'] else []) ++
        (if mi ≠ 0 then natRepr mi ++ ['M'] else []) ++
        secondsPartChars s u =
        (if h ≠ 0 then natRepr h ++ ['H'] else []) ++
          ((if mi ≠ 0 then natRepr mi ++ ['M'] else []) ++
            secondsPartChars s u) := by
      simp [List.append_assoc]
    simp only [parseTime, if_pos (rfl : ('T' : Char) = 'T'), hassoc]
    rw [hH]
    simp only []
    rw [hM]
    simp only []
    rw [parseSecondsComp_secondsPart s u hu]
    simp
  · push_neg at hcond
    obtain ⟨h0, m0, s0, u0⟩ := hcond
    subst h0; subst m0; subst s0; subst u0
    simp [timePartChars, parseTime]

/-- The `T` section never starts with a digit. -/
theorem headIsDigit_timePart (h mi s u : Nat) :
    headIsDigit (timePartChars h mi s u) = false := by
  unfold timePartChars
  split
  · rfl
  · rfl

/-- Round trip: parsing the isodate rendering of a non-negative `timedelta`
recovers its total number of microseconds. -/
theorem parseDur_durationChars {m : Int} (hm : 0 ≤ m) :
    parseDur (durationChars m) = some m := by
  have hneg : ¬ m < 0 := not_lt.mpr hm
  have hu : durUsecs m < 1000000 := Nat.mod_lt _ (by norm_num)
  have harith : durDays m * 86400000000 +
      (((durHours m * 60 + durMinutes m) * 60 + durSeconds m) * 1000000 +
        durUsecs m) = m.natAbs := by
    simp only [durDays, durHours, durMinutes, durSeconds, durUsecs]
    omega
  have hstep1 : durationChars m = 'P' ::
      (if durationBody m = [] then ['0', 'D'] else durationBody m) := by
    simp [durationChars, hneg]
  rw [hstep1]
  simp only [parseDur, if_neg (by decide : ¬('P' : Char) = '-'),
    if_neg (by decide : ¬('P' : Char) = '+')]
  simp only [parseDurBody, if_pos (rfl : ('P' : Char) = 'P')]
  by_cases hbody : durationBody m = []
  · rw [if_pos hbody]
    -- all components are zero
    have hcomp : durDays m = 0 ∧ durHours m = 0 ∧ durMinutes m = 0 ∧
        durSeconds m = 0 ∧ durUsecs m = 0 := by
      simp only [durationBody] at hbody
      rcases List.append_eq_nil.mp hbody with ⟨h1, h2⟩
      have hD : durDays m = 0 := by
        by_contra hd
        rw [if_pos hd] at h1
        simp at h1
      have hT : durHours m = 0 ∧ durMinutes m = 0 ∧ durSeconds m = 0 ∧
          durUsecs m = 0 := by
        by_contra hz
        have hcond : durHours m ≠ 0 ∨ durMinutes m ≠ 0 ∨ durSeconds m ≠ 0 ∨
            durUsecs m ≠ 0 := by tauto
        rw [timePartChars, if_pos hcond] at h2
        simp at h2
      exact ⟨hD, hT⟩
    have hm0 : m = 0 := by
      have : m.natAbs = 0 := by
        rw [← harith, hcomp.1, hcomp.2.1, hcomp.2.2.1, hcomp.2.2.2.1,
          hcomp.2.2.2.2]
      exact Int.natAbs_eq_zero.mp this
    have h0D : (['0', 'D'] : List Char) = natRepr 0 ++ 'D' :: [] := by decide
    rw [h0D, parseComp_present 'D' (by decide) 0 []]
    simp only [parseTime]
    simp [durValue, hm0]
  · rw [if_neg hbody]
    simp only [durationBody]
    have hD : parseComp 'D' ((if durDays m ≠ 0 then
        natRepr (durDays m) ++ ['D'] else []) ++
        timePartChars (durHours m) (durMinutes m) (durSeconds m) (durUsecs m)) =
        (durDays m, timePartChars (durHours m) (durMinutes m) (durSeconds m)
          (durUsecs m)) :=
      parseComp_opt 'D' (by decide) _ _
        (Or.inl (headIsDigit_timePart _ _ _ _))
    rw [hD]
    simp only []
    rw [parseTime_timePart _ _ _ _ hu]
    simp only [durValue, Bool.false_eq_true, if_false]
    rw [harith]
    exact congrArg some (Int.natAbs_of_nonneg hm)

/-! ## Isoformat rendering lemmas -/

/-- All characters of a `%02d` rendering are digits. -/
theorem pad2_digits (n : Nat) : ∀ c ∈ pad2 n, c.isDigit = true := by
  intro c hc
  rcases List.mem_append.mp hc with h | h
  · have : c = '0' := List.eq_of_mem_replicate h
    subst this; decide
  · exact natRepr_digits n c h

/-- A `%02d` rendering of `n ≤ 99` has exactly two characters. -/
theorem pad2_length {n : Nat} (h : n ≤ 99) : (pad2 n).length = 2 := by
  have hle : (natRepr n).length ≤ 2 :=
    natRepr_length_le (by norm_num) (by norm_num; omega)
  simp only [pad2, List.length_append, List.length_replicate]
  omega

/-- A `%04d` rendering of `n ≤ 9999` has exactly four characters. -/
theorem pad4_length {n : Nat} (h : n ≤ 9999) : (pad4 n).length = 4 := by
  have hle : (natRepr n).length ≤ 4 :=
    natRepr_length_le (by norm_num) (by norm_num; omega)
  simp only [pad4, List.length_append, List.length_replicate]
  omega

/-- A decimal digit is not a timezone-designator character. -/
theorem digit_not_designator {c : Char} (h : c.isDigit = true) :
    (c == 'Z' || c == '+' || c == '-') = false := by
  have hZ : c ≠ 'Z' := by rintro rfl; exact absurd h (by decide)
  have hp : c ≠ '+' := by rintro rfl; exact absurd h (by decide)
  have hm : c ≠ '-' := by rintro rfl; exact absurd h (by decide)
  simp [hZ, hp, hm]

/-! ## Claim theorems -/

/-- C1: every `ExecutionTime` produced through the two named constructors has
exactly one of the two fields set — `ExecutionTime.at` leaves `execute_after`
unset while setting `execute_at`, and `ExecutionTime.after` leaves
`execute_at` unset while setting `execute_after`; no factory-produced value
has both fields set. -/
theorem executionTime_factories_tagged_union :
    ∀ (dt : Datetime) (ev : ReferenceType) (off : Int),
      (ExecutionTime.at dt).execute_after = none ∧
      (ExecutionTime.at dt).execute_at.isSome = true ∧
      (ExecutionTime.after ev off).execute_at = none ∧
      (ExecutionTime.after ev off).execute_after.isSome = true :=
  fun _ _ _ => ⟨rfl, rfl, rfl, rfl⟩

/-- C2: `DelayedClientTask.invoke` maps each keyword argument to a one-element
list when the value is a string and keeps it unchanged otherwise; in
particular `invoke("X", location="Bonn")` yields
`parameters == {"location": ["Bonn"]}` and
`invoke("X", location=["Bonn","Berlin"])` yields
`parameters == {"location": ["Bonn","Berlin"]}`. -/
theorem invoke_parameters_normalization :
    (∀ (intent : String) (sid : Option String) (kwargs : List (String × ParamValue)),
      (DelayedClientTask.invoke intent sid kwargs).invoke_data.parameters =
        kwargs.map (fun kv =>
          (kv.1, match kv.2 with
            | ParamValue.text s => [s]
            | ParamValue.listOf l => l))) ∧
    (DelayedClientTask.invoke "X" none
        [("location", ParamValue.text "Bonn")]).invoke_data.parameters =
      [("location", ["Bonn"])] ∧
    (DelayedClientTask.invoke "X" none
        [("location", ParamValue.listOf ["Bonn", "Berlin"])]).invoke_data.parameters =
      [("location", ["Bonn", "Berlin"])] := by
  refine ⟨fun intent sid kwargs => ?_, rfl, rfl⟩
  show kwargs.map (fun kv => (kv.1, normalizeParam kv.2)) = _
  refine List.map_congr_left fun kv _ => ?_
  cases h : kv.2 <;> simp [normalizeParam, h]

/-- C3: `DelayedClientTask.at` and `DelayedClientTask.after` each return a new
task whose `invoke_data` equals the receiver's and whose `execution_time` is
the only field replaced, by `ExecutionTime.at` / `ExecutionTime.after`
respectively (the receiver, an immutable value here, is not mutated). -/
theorem task_at_after_copy_on_write :
    ∀ (t : DelayedClientTask) (time : Datetime) (ev : ReferenceType) (off : Int),
      (t.at time).invoke_data = t.invoke_data ∧
      (t.at time).execution_time = ExecutionTime.at time ∧
      (t.after ev off).invoke_data = t.invoke_data ∧
      (t.after ev off).execution_time = ExecutionTime.after ev off :=
  fun _ _ _ _ => ⟨rfl, rfl, rfl, rfl⟩

/-- C4: for a non-empty intent, `DelayedClientTask.invoke(intent)` with no
keyword arguments yields empty parameters and a relative execution time
anchored at `SPEECH_END` with the zero offset (`"P0D"`). -/
theorem invoke_default_execution_time (intent : String) (sid : Option String)
    (h : intent ≠ "") :
    (DelayedClientTask.invoke intent sid []).invoke_data.parameters = [] ∧
    (DelayedClientTask.invoke intent sid []).execution_time.execute_after =
      some { reference := ReferenceType.SPEECH_END, offset := some "P0D" } ∧
    (DelayedClientTask.invoke intent sid []).execution_time.execute_at = none := by
  refine ⟨rfl, ?_, rfl⟩
  show some (⟨ReferenceType.SPEECH_END, some (duration_isoformat 0)⟩ : ExecuteAfter) = _
  decide

/-- Witness for C4 at the concrete intent `"X"`. -/
theorem invoke_default_execution_time_witness :
    ("X" : String) ≠ "" ∧
    ((DelayedClientTask.invoke "X" none []).invoke_data.parameters = [] ∧
    (DelayedClientTask.invoke "X" none []).execution_time.execute_after =
      some { reference := ReferenceType.SPEECH_END, offset := some "P0D" } ∧
    (DelayedClientTask.invoke "X" none []).execution_time.execute_at = none) :=
  ⟨by decide, invoke_default_execution_time "X" none (by decide)⟩

/-- C6 counterexample: constructing `InvokeData` with the empty string as
intent succeeds — pydantic's plain `Text` annotation accepts it, so no
validation error is raised. -/
theorem construct_empty_intent_accepted :
    InvokeData.construct (some "") none [] =
      Except.ok { intent := "", skill_id := none, parameters := [] } := rfl

/-- C6 amended: the `intent` field is required — omitting it fails with a
validation error — but an empty string is accepted, both by direct
construction and through `DelayedClientTask.invoke`. -/
theorem construct_intent_required :
    (∀ (sid : Option String) (ps : List (String × List String)),
      InvokeData.construct none sid ps =
        Except.error (ValidationError.fieldRequired "intent")) ∧
    (∀ (sid : Option String) (ps : List (String × List String)),
      InvokeData.construct (some "") sid ps =
        Except.ok { intent := "", skill_id := sid, parameters := ps }) ∧
    (∀ (sid : Option String) (kwargs : List (String × ParamValue)),
      (DelayedClientTask.invoke "" sid kwargs).invoke_data.intent = "") :=
  ⟨fun _ _ => rfl, fun _ _ => rfl, fun _ _ => rfl⟩

/-- C7 counterexample: a negative offset (−10 seconds) does not make
`ExecutionTime.after` fail — it produces a value whose offset string
`"-PT10S"` is not a non-negative ISO-8601 duration. -/
theorem after_negative_offset_no_error :
    (ExecutionTime.after ReferenceType.SPEECH_END (-10000000)).execute_after =
      some { reference := ReferenceType.SPEECH_END, offset := some "-PT10S" } ∧
    nonNegIsoDuration "-PT10S" = false := by
  constructor
  · show some (⟨ReferenceType.SPEECH_END,
        some (duration_isoformat (-10000000))⟩ : ExecuteAfter) = _
    decide
  · decide

/-- C9 (spec-modelled): `ErrorResponse(code=999, text="internal error")`
exposes that code and text, and the named error conditions map one-to-one to
fixed numeric codes, `INVALID_TOKEN ↦ 2` and `INTERNAL_ERROR ↦ 999`. -/
theorem errorResponse_codes :
    (ErrorResponse.mk 999 "internal error").code = 999 ∧
    (ErrorResponse.mk 999 "internal error").text = "internal error" ∧
    ErrorCode.INVALID_TOKEN.toCode = 2 ∧
    ErrorCode.INTERNAL_ERROR.toCode = 999 ∧
    Function.Injective ErrorCode.toCode := by
  refine ⟨rfl, rfl, rfl, rfl, fun a b hab => ?_⟩
  cases a <;> cases b <;> simp_all [ErrorCode.toCode]

/-- C10: `ExecutionTime.after` always stores a present offset string — the
zero offset is encoded as `"P0D"`, not omitted — so the offset field of tasks
built by `DelayedClientTask.invoke` and `DelayedClientTask.after` is never
`None`. -/
theorem offset_never_none :
    (∀ (ev : ReferenceType) (off : Int),
      (ExecutionTime.after ev off).execute_after =
        some { reference := ev, offset := some (duration_isoformat off) }) ∧
    duration_isoformat 0 = "P0D" ∧
    (∀ (intent : String) (sid : Option String) (kwargs : List (String × ParamValue)),
      ((DelayedClientTask.invoke intent sid kwargs).execution_time.execute_after.bind
        (fun ea => ea.offset)) = some "P0D") ∧
    (∀ (t : DelayedClientTask) (ev : ReferenceType) (off : Int),
      ((t.after ev off).execution_time.execute_after.bind (fun ea => ea.offset)) =
        some (duration_isoformat off)) := by
  refine ⟨fun _ _ => rfl, by decide, fun intent sid kwargs => ?_, fun _ _ _ => rfl⟩
  show some (duration_isoformat 0) = some "P0D"
  decide

/-- C5 counterexample: `ExecutionTime.at` on a naive datetime (the Python
`datetime(2020, 11, 25, 12, 0)`) renders `"2020-11-25T12:00:00"`, which
contains no timezone offset or UTC designator. -/
theorem at_naive_datetime_no_tz :
    (ExecutionTime.at { year := 2020, month := 11, day := 25, hour := 12 }).execute_at =
      some "2020-11-25T12:00:00" ∧
    specHasTzDesignator "2020-11-25T12:00:00" = false := by
  constructor
  · show some (pyIsoformat { year := 2020, month := 11, day := 25, hour := 12 }) = _
    decide
  · decide

/-- C5 amended: `ExecutionTime.at(timestamp)` sets `execute_at` to the
Python-`isoformat` rendering of the timestamp, and that rendering carries an
explicit timezone designator exactly when the datetime is timezone-aware — a
naive datetime yields a rendering with no UTC/offset designator.  (The bounds
on the calendar fields are those of any valid Python `datetime`.) -/
theorem at_isoformat_tz_designator (dt : Datetime) (hy : dt.year ≤ 9999)
    (hmo : dt.month ≤ 99) (hd : dt.day ≤ 99) :
    (ExecutionTime.at dt).execute_at = some (pyIsoformat dt) ∧
    specHasTzDesignator (pyIsoformat dt) = dt.utcoffsetMinutes.isSome := by
  refine ⟨rfl, ?_⟩
  show ((isoformatChars dt).drop 11).any
    (fun c => c == 'Z' || c == '+' || c == '-') = dt.utcoffsetMinutes.isSome
  have hdplen : (pad4 dt.year ++ '-' :: pad2 dt.month ++ '-' :: pad2 dt.day ++
      ['T']).length = 11 := by
    simp [List.length_append, pad4_length hy, pad2_length hmo, pad2_length hd]
  have hsplit : isoformatChars dt =
      (pad4 dt.year ++ '-' :: pad2 dt.month ++ '-' :: pad2 dt.day ++ ['T']) ++
      (pad2 dt.hour ++ ':' :: pad2 dt.minute ++ ':' :: pad2 dt.second ++
        (if dt.microsecond ≠ 0 then '.' :: padLeft6 (natRepr dt.microsecond)
         else []) ++
        (match dt.utcoffsetMinutes with
         | none => []
         | some off =>
            (if off < 0 then '-' else '+') :: pad2 (off.natAbs / 60) ++
              ':' :: pad2 (off.natAbs % 60))) := by
    simp [isoformatChars, List.append_assoc]
  have hdrop : (isoformatChars dt).drop 11 =
      pad2 dt.hour ++ ':' :: pad2 dt.minute ++ ':' :: pad2 dt.second ++
        (if dt.microsecond ≠ 0 then '.' :: padLeft6 (natRepr dt.microsecond)
         else []) ++
        (match dt.utcoffsetMinutes with
         | none => []
         | some off =>
            (if off < 0 then '-' else '+') :: pad2 (off.natAbs / 60) ++
              ':' :: pad2 (off.natAbs % 60)) := by
    rw [hsplit, ← hdplen, List.drop_left]
  rw [hdrop]
  cases hoff : dt.utcoffsetMinutes with
  | none =>
    simp only [Option.isSome_none]
    rw [List.any_eq_false]
    intro c hc
    simp only [List.mem_append, List.mem_cons] at hc
    have hc' : c.isDigit = true ∨ c = ':' ∨ c = '.' := by
      rcases hc with ((((h | h) | h) | h) | h)
      · exact Or.inl (pad2_digits dt.hour c h)
      · rcases h with h | h
        · exact Or.inr (Or.inl h)
        · exact Or.inl (pad2_digits dt.minute c h)
      · rcases h with h | h
        · exact Or.inr (Or.inl h)
        · exact Or.inl (pad2_digits dt.second c h)
      · by_cases hmic : dt.microsecond ≠ 0
        · rw [if_pos hmic] at h
          rcases List.mem_cons.mp h with h | h
          · exact Or.inr (Or.inr h)
          · exact Or.inl (padLeft6_digits dt.microsecond c h)
        · rw [if_neg hmic] at h
          simp at h
      · simp at h
    rcases hc' with h | h | h
    · simp [digit_not_designator h]
    · subst h; decide
    · subst h; decide
  | some off =>
    simp only [Option.isSome_some]
    rw [List.any_eq_true]
    refine ⟨(if off < 0 then '-' else '+'), ?_, ?_⟩
    · simp [List.mem_append, List.mem_cons]
    · by_cases hneg : off < 0
      · rw [if_pos hneg]; decide
      · rw [if_neg hneg]; decide

/-- Witness for C5's amended claim at a concrete timezone-aware datetime
(`2020-11-25 12:00 +01:00`). -/
theorem at_isoformat_tz_designator_witness :
    (2020 ≤ 9999 ∧ 11 ≤ 99 ∧ 25 ≤ 99) ∧
    ((ExecutionTime.at ⟨2020, 11, 25, 12, 0, 0, 0, some 60⟩).execute_at =
      some (pyIsoformat ⟨2020, 11, 25, 12, 0, 0, 0, some 60⟩) ∧
    specHasTzDesignator (pyIsoformat ⟨2020, 11, 25, 12, 0, 0, 0, some 60⟩) =
      (Option.some (60 : Int)).isSome) :=
  ⟨⟨by decide, by decide, by decide⟩,
    at_isoformat_tz_designator ⟨2020, 11, 25, 12, 0, 0, 0, some 60⟩
      (by decide) (by decide) (by decide)⟩

/-- C7 amended: `ExecutionTime.after` accepts every `timedelta` offset without
raising; for non-negative offsets the stored offset string is a valid
non-negative ISO-8601 duration (a negative offset instead yields a
negatively-signed duration string, see the counterexample). -/
theorem after_offset_nonneg_valid (ev : ReferenceType) (m : Int) (hm : 0 ≤ m) :
    (ExecutionTime.after ev m).execute_after =
      some { reference := ev, offset := some (duration_isoformat m) } ∧
    nonNegIsoDuration (duration_isoformat m) = true := by
  refine ⟨rfl, ?_⟩
  show (match parseDur (durationChars m) with
    | some x => decide (0 ≤ x)
    | none => false) = true
  rw [parseDur_durationChars hm]
  exact decide_eq_true hm

/-- Witness for C7's amended claim at the zero offset. -/
theorem after_offset_nonneg_valid_witness :
    (0 : Int) ≤ 0 ∧
    ((ExecutionTime.after ReferenceType.SPEECH_END 0).execute_after =
      some ⟨ReferenceType.SPEECH_END, some (duration_isoformat 0)⟩ ∧
    nonNegIsoDuration (duration_isoformat 0) = true) :=
  ⟨by decide, after_offset_nonneg_valid ReferenceType.SPEECH_END 0 (by decide)⟩

/-- C8: for every reference type and every non-negative offset, decoding the
stored `execute_after.offset` duration string recovers the original offset
(encode-then-decode is the identity on non-negative durations). -/
theorem after_offset_roundtrip (ev : ReferenceType) (m : Int) (hm : 0 ≤ m) :
    ((ExecutionTime.after ev m).execute_after.bind (fun ea => ea.offset)).bind
      parseDurationStr = some m := by
  show parseDurationStr (duration_isoformat m) = some m
  exact parseDur_durationChars hm

/-- Witness for C8 at a fractional-second offset (10.5 s = 10500000 µs,
rendered `"PT10.5S"`). -/
theorem after_offset_roundtrip_witness :
    (0 : Int) ≤ 10500000 ∧
    ((ExecutionTime.after ReferenceType.SPEECH_END 10500000).execute_after.bind
      (fun ea => ea.offset)).bind parseDurationStr = some 10500000 :=
  ⟨by decide, after_offset_roundtrip ReferenceType.SPEECH_END 10500000 (by decide)⟩

end SkillSdk
